import Mathlib

/-!
# Verification of the AutoPath dynamic-routing simulation core

Shallow embedding of `src/pages/Simulation.tsx`: the A* path planner
(`findBestPath`), the soft-constraint reroute decision, the environment tick
that perturbs edge speeds, the incident injector (`triggerCongestion`), the
vehicle movement tick and the bounded decision log (`addLog`).

JavaScript numbers are modelled as rationals (`ℚ`); the value `Infinity` used
to initialise A* scores is modelled as `⊤ : WithTop ℚ`, and a missing record
key (`undefined`) as `Option.none`, so that the comparison semantics of the
source (`x < undefined` is false, `x < Infinity` is true for finite `x`) are
preserved.  Randomness (traffic flux, severe-slowdown draws) is modelled by
universally quantified parameters.  Loops are modelled with explicit fuel.
-/

/- Batteries seals the rational-number operations; re-opening them lets the
kernel evaluate the embedded code on concrete inputs (`decide`). -/
set_option allowUnsafeReducibility true

attribute [semireducible] Rat.add Rat.mul Rat.inv Rat.sub

namespace AutoPath

/-- Traffic-light state of a node.  The TypeScript field `lightStatus` is
optional, so besides `'green'` and `'red'` a node may have no status at all
(`unset`); every check in the source is `=== 'red'`. -/
inductive Light where
  | green
  | red
  | unset
deriving DecidableEq, Repr

/-- A graph node (`Node` in `types.ts`): id, 2-D position, light state. -/
structure JNode where
  id : String
  x : ℚ
  y : ℚ
  light : Light
deriving DecidableEq, Repr

/-- A graph edge (`Edge` in `types.ts`).  `congested` is the manual-incident
flag (optional in TS; absent behaves as `false`). -/
structure JEdge where
  id : String
  source : String
  target : String
  length : ℚ
  limit : ℚ
  baseSpeed : ℚ
  currentSpeed : ℚ
  congested : Bool
deriving DecidableEq, Repr

/-- Severity of a decision-log entry. -/
inductive LogType where
  | info
  | warning
  | error
  | success
deriving DecidableEq, Repr

/-- The log-producing events of the simulation core, abstracting the message
strings built in the source (string formatting such as `toFixed` is not
modelled; each constructor carries the numeric payload of its message). -/
inductive LogEvent where
  /-- `Destination Reached! Total Time: ... min` with the elapsed time. -/
  | destinationReached (totalTime : ℚ)
  /-- `Error: Path connectivity lost`. -/
  | connectivityLost
  /-- `DQN-RLPSO: Triggered Reroute | Saved: ... | Net Benefit: ...`. -/
  | rerouteTriggered (rawTimeSaved netBenefit : ℚ)
  /-- `VANET Alert: <reason> (Edge <id>), Speed dropped to <speed>km/h`. -/
  | vanetAlert (reason edgeId : String) (speed : ℚ)
deriving DecidableEq, Repr

/-- Severity each event is logged with, as hard-coded at its `addLog` call
site in the source. -/
def LogEvent.severity : LogEvent → LogType
  | .destinationReached _ => .success
  | .connectivityLost => .error
  | .rerouteTriggered _ _ => .success
  | .vanetAlert _ _ _ => .error

/-- `addLog` (Simulation.tsx line 145): the new entry is prepended and the
list is truncated with `Array.prototype.slice(100)`, which keeps only the
elements from index 100 onwards. -/
def addLog {α : Type} (entry : α) (prev : List α) : List α :=
  (entry :: prev).drop 100

/-!
## Soft-constraint reroute decision (Simulation.tsx lines 203-236)
-/

/-- The decision rule of lines 214-224: net benefit and relative improvement
computed from the previous estimate, the elapsed time, the penalty weight and
the candidate's estimated remaining time. -/
def shouldReroute (estimatedTime totalTime penaltyWeight newRemainingTime : ℚ) : Bool :=
  let oldRemainingTime := max (1/10) (estimatedTime - totalTime)
  let rawTimeSaved := oldRemainingTime - newRemainingTime
  let netBenefit := rawTimeSaved - penaltyWeight
  let relativeImprovement := rawTimeSaved / oldRemainingTime
  decide (netBenefit > 0) && decide (relativeImprovement > 1/5)

/-- The slice of simulation state read and written by the reroute engine. -/
structure RState where
  currentPath : List String
  carNodeIndex : ℕ
  estimatedTime : ℚ
  totalTime : ℚ
  pathChanges : ℕ
deriving DecidableEq, Repr

/-- Reroute evaluation (lines 207-233), given a candidate route
`(newPath, newTime)` returned by the planner.  Returns the updated state and
the list of emitted log events. -/
def rerouteEval (penaltyWeight : ℚ) (newPath : List String) (newTime : ℚ)
    (st : RState) : RState × List LogEvent :=
  let oldPathStr := String.intercalate "," (st.currentPath.drop st.carNodeIndex)
  let newPathStr := String.intercalate "," newPath
  if oldPathStr ≠ newPathStr then
    let oldRemainingTime := max (1/10) (st.estimatedTime - st.totalTime)
    let newRemainingTime := newTime
    let rawTimeSaved := oldRemainingTime - newRemainingTime
    let netBenefit := rawTimeSaved - penaltyWeight
    if shouldReroute st.estimatedTime st.totalTime penaltyWeight newTime then
      ({ st with
          currentPath := st.currentPath.take st.carNodeIndex ++ newPath,
          pathChanges := st.pathChanges + 1,
          estimatedTime := st.totalTime + newRemainingTime },
       [.rerouteTriggered rawTimeSaved netBenefit])
    else (st, [])
  else (st, [])

/-!
## The path planner `findBestPath` (Simulation.tsx lines 12-111)

Scores (`gScore`, `fScore`) live in JavaScript records whose values are
numbers or `Infinity`; a key that was never written reads as `undefined`.
This is modelled by `String → Option Qinf` where `Qinf = WithTop ℚ`:
`none` is `undefined` and `some ⊤` is `Infinity`.  JavaScript comparison
`a < b` is false whenever a side is `undefined` (it becomes `NaN`), and
`undefined + x` is `NaN`, which compares false against everything; `jsLt`
and `jsAdd` reproduce this.  The `while` loops carry explicit fuel; running
out of fuel yields `Option.none` at the outermost layer (the inner
`Option` is the source's `null` result for an unreachable target).
-/

/-- JavaScript numbers extended with `Infinity`. -/
abbrev Qinf := WithTop ℚ

/-- JavaScript `<` on possibly-undefined numbers: false if a side is
missing. -/
def jsLt (a b : Option Qinf) : Bool :=
  match a, b with
  | some x, some y => decide (x < y)
  | _, _ => false

/-- JavaScript `+` of a possibly-undefined number and a number: missing
propagates (as `NaN`, which every later comparison rejects). -/
def jsAdd (a : Option Qinf) (b : Qinf) : Option Qinf :=
  a.map (· + b)

/-- Record update. -/
def updRec (r : String → Option Qinf) (k : String) (v : Option Qinf) :
    String → Option Qinf :=
  fun x => if x = k then v else r x

/-- `Set.add`: appends only if absent, keeping insertion order. -/
def setAdd (l : List String) (x : String) : List String :=
  if x ∈ l then l else l ++ [x]

/-- The heuristic `h(n)` (lines 15-25): Manhattan distance between the node
and the target divided by 100, or 0 when either lookup fails. -/
def heuristic (nodes : List JNode) (endId id : String) : ℚ :=
  match nodes.find? (fun n => n.id == id), nodes.find? (fun n => n.id == endId) with
  | some n, some t => (|n.x - t.x| + |n.y - t.y|) / 100
  | _, _ => 0

/-- Travel direction classification (lines 42-48). -/
inductive Dir where
  | horizontal
  | vertical
  | nodir
deriving DecidableEq, Repr

/-- `getDirection` (lines 42-48): `nodir` when a node lookup fails,
otherwise horizontal iff `|Δx| > |Δy|`. -/
def getDirection (nodes : List JNode) (fromId toId : String) : Dir :=
  match nodes.find? (fun n => n.id == fromId), nodes.find? (fun n => n.id == toId) with
  | some n1, some n2 => if |n1.x - n2.x| > |n1.y - n2.y| then .horizontal else .vertical
  | _, _ => .nodir

/-- The dynamic edge weight of lines 74-99: base travel time from length and
clamped current speed, red-light penalty on the target node, turn penalty
against the predecessor recorded in `cameFrom`, all scaled by the road-level
factor. -/
def edgeCost (nodes : List JNode) (cameFromCurrent : Option String)
    (current neighborId : String) (e : JEdge) : ℚ :=
  let speed := max (1/10) e.currentSpeed
  let baseTime := e.length / speed * 60
  let targetNode := nodes.find? fun n => n.id == neighborId
  let lightPenalty : ℚ := if targetNode.elim false (fun n => n.light == .red) then 1/2 else 0
  let turnPenalty : ℚ :=
    match cameFromCurrent with
    | some prevId =>
        if getDirection nodes prevId current ≠ getDirection nodes current neighborId
        then 3/20 else 0
    | none => 0
  let roadLevelFactor : ℚ := if e.limit ≥ 60 then 1 else 6/5
  (baseTime + lightPenalty + turnPenalty) * roadLevelFactor

/-- The mutable search state of `findBestPath`. -/
structure AState where
  openS : List String
  cameFrom : String → Option String
  g : String → Option Qinf
  f : String → Option Qinf

/-- The `reduce` of line 52: first open node, replaced whenever a later one
has a strictly smaller f-score (ties keep the later node, as in the
source's `fScore[a] < fScore[b] ? a : b`).  Only called on a nonempty list;
returns `""` on the empty list, which the loop guard excludes. -/
def pickMin (f : String → Option Qinf) : List String → String
  | [] => ""
  | x :: xs => xs.foldl (fun a b => if jsLt (f a) (f b) then a else b) x

/-- Relaxation of one incident edge (the loop body, lines 69-107). -/
def relaxEdge (nodes : List JNode) (endId current : String) (st : AState)
    (e : JEdge) : AState :=
  let neighborId := if e.source == current then e.target else e.source
  let tentativeGScore :=
    jsAdd (st.g current) (edgeCost nodes (st.cameFrom current) current neighborId e)
  if jsLt tentativeGScore (st.g neighborId) then
    { openS := setAdd st.openS neighborId,
      cameFrom := fun x => if x = neighborId then some current else st.cameFrom x,
      g := updRec st.g neighborId tentativeGScore,
      f := updRec st.f neighborId
             (jsAdd tentativeGScore (heuristic nodes endId neighborId)) }
  else st

/-- Path reconstruction (lines 56-60): walk `cameFrom` links from the goal,
prepending each predecessor, until a node with no link; fuel bounds the
walk. -/
def reconstruct (cf : String → Option String) : ℕ → String → List String →
    Option (List String)
  | 0, cur, acc => match cf cur with
    | none => some acc
    | some _ => none
  | fuel + 1, cur, acc => match cf cur with
    | none => some acc
    | some p => reconstruct cf fuel p (p :: acc)

/-- The main `while openSet.size > 0` loop (lines 50-108).  The outer
`Option` is fuel exhaustion; the inner one is the source's `null`
(unreachable target). -/
def astarLoop (edges : List JEdge) (nodes : List JNode) (endId : String) :
    ℕ → AState → Option (Option (List String × Option Qinf))
  | 0, _ => none
  | fuel + 1, st =>
    if st.openS = [] then some none
    else
      let current := pickMin st.f st.openS
      if current = endId then
        match reconstruct st.cameFrom (fuel + 1) current [current] with
        | none => none
        | some totalPath => some (some (totalPath, st.g endId))
      else
        let st := { st with openS := st.openS.erase current }
        let neighbors := edges.filter fun e => e.source == current || e.target == current
        astarLoop edges nodes endId fuel (neighbors.foldl (relaxEdge nodes endId current) st)

/-- `findBestPath` (lines 12-111) with explicit fuel: initial scores set
every known node to `Infinity`, then the start to 0 (g) and to its heuristic
(f); the open set starts as `{startId}`. -/
def findBestPath (fuel : ℕ) (startId endId : String) (currentEdges : List JEdge)
    (nodes : List JNode) : Option (Option (List String × Option Qinf)) :=
  let g0 : String → Option Qinf :=
    updRec (fun id => if nodes.any (fun n => n.id == id) then some ⊤ else none)
      startId (some 0)
  let f0 : String → Option Qinf :=
    updRec (fun id => if nodes.any (fun n => n.id == id) then some ⊤ else none)
      startId (some (heuristic nodes endId startId))
  astarLoop currentEdges nodes endId fuel
    { openS := [startId], cameFrom := fun _ => none, g := g0, f := f0 }

/-- Proof device: the list of proper ancestors of `cur` under the `cameFrom`
links, oldest first, so that `reconstruct cf fuel cur acc` succeeds exactly
when this does, with value `ancChain ++ acc`. -/
def ancChain (cf : String → Option String) : ℕ → String → Option (List String)
  | 0, cur => match cf cur with
    | none => some []
    | some _ => none
  | fuel + 1, cur => match cf cur with
    | none => some []
    | some p => (ancChain cf fuel p).map (· ++ [p])

/-!
## Reference shortest path

The reference cost of §8 of the spec: the static weight of an edge is
`length / currentSpeed × 60` plus the red-light penalty of the entered node,
and the reference shortest-path cost is the minimum of the static costs over
all simple paths from start to goal (for nonnegative weights this is the
value any reference algorithm, e.g. Dijkstra, computes). -/

/-- Whether some listed edge joins `u` and `v` (in either orientation). -/
def connectsB (edges : List JEdge) (u v : String) : Bool :=
  edges.any fun e => (e.source == u && e.target == v) || (e.source == v && e.target == u)

/-- Static weight of the step from `u` into `v`: taken from the first listed
edge joining them (0 if none, a case valid paths exclude). -/
def refWeight (edges : List JEdge) (nodes : List JNode) (u v : String) : ℚ :=
  match edges.find? fun e =>
      (e.source == u && e.target == v) || (e.source == v && e.target == u) with
  | some e =>
      e.length / e.currentSpeed * 60 +
        (if (nodes.find? fun n => n.id == v).elim false (fun n => n.light == .red)
         then 1/2 else 0)
  | none => 0

/-- Static cost of a node sequence: sum of the step weights. -/
def staticCost (edges : List JEdge) (nodes : List JNode) : List String → ℚ
  | u :: v :: rest => refWeight edges nodes u v + staticCost edges nodes (v :: rest)
  | _ => 0

/-- Consecutive nodes of the sequence are joined by listed edges. -/
def chainB (edges : List JEdge) : List String → Bool
  | u :: v :: rest => connectsB edges u v && chainB edges (v :: rest)
  | _ => true

/-- No element occurs twice. -/
def nodupB : List String → Bool
  | [] => true
  | x :: xs => !(xs.contains x) && nodupB xs

/-- A simple (loop-free) path from `start` to `goal` whose consecutive nodes
are joined by listed edges. -/
def isSimplePathB (edges : List JEdge) (start goal : String) (p : List String) : Bool :=
  (p.head? == some start) && (p.getLast? == some goal) && nodupB p && chainB edges p

/-- The node universe a planner path can draw from: the start node and every
edge endpoint. -/
def nodeUniverse (startId : String) (edges : List JEdge) : List String :=
  (startId :: edges.flatMap fun e => [e.source, e.target]).dedup

/-- All ways of inserting `x` into a list. -/
def insertsEverywhere {α : Type} (x : α) : List α → List (List α)
  | [] => [[x]]
  | y :: ys => (x :: y :: ys) :: (insertsEverywhere x ys).map (y :: ·)

/-- All permutations of a list (structurally recursive, so that concrete
instances evaluate inside the kernel). -/
def perms {α : Type} : List α → List (List α)
  | [] => [[]]
  | x :: xs => (perms xs).flatMap (insertsEverywhere x)

/-- All simple paths over the node universe. -/
def simplePaths (startId endId : String) (edges : List JEdge) : List (List String) :=
  ((nodeUniverse startId edges).sublists.flatMap perms).filter
    (isSimplePathB edges startId endId)

/-- The reference shortest-path cost: minimum static cost over all simple
paths (`⊤` when the goal is unreachable). -/
def refShortestCost (startId endId : String) (edges : List JEdge)
    (nodes : List JNode) : Qinf :=
  ((simplePaths startId endId edges).map (staticCost edges nodes)).minimum

/-!
## Environment tick (Simulation.tsx lines 166-176) and incident injection
-/

/-- One environment-tick update of a single edge (the body of the `map` at
lines 166-176).  `flux` stands for the random draw `(Math.random() - 0.5) * 15`
and `severe` for the event `Math.random() > 0.95`.  An edge flagged
`congested` is returned untouched.  Note that the severe-slowdown override is
applied after the clamp and is itself only floored, not clamped to `limit`,
exactly as in the source. -/
def envUpdateEdge (flux : ℚ) (severe : Bool) (e : JEdge) : JEdge :=
  if e.congested then e
  else
    let newSpeed := e.baseSpeed + flux
    let newSpeed := max 5 (min e.limit newSpeed)
    let newSpeed := if severe then max 5 (e.baseSpeed * (1/5)) else newSpeed
    { e with currentSpeed := (⌊newSpeed⌋ : ℤ) }

/-- The edge part of one environment tick: every edge is updated with its own
random draws, supplied as streams `fl`, `sv` indexed by position (the index
accumulator `i` starts at 0). -/
def envTickEdges (fl : ℕ → ℚ) (sv : ℕ → Bool) : ℕ → List JEdge → List JEdge
  | _, [] => []
  | i, e :: rest => envUpdateEdge (fl i) (sv i) e :: envTickEdges fl sv (i + 1) rest

/-- A list of environment ticks applied in order, each with its own random
streams. -/
def runTicks (ps : List ((ℕ → ℚ) × (ℕ → Bool))) (es : List JEdge) : List JEdge :=
  ps.foldl (fun acc p => envTickEdges p.1 p.2 0 acc) es

/-- `triggerCongestion` (lines 313-321): the matching edge's current speed is
set to the forced value (no clamping) and its incident flag is set; an
error-severity alert is logged.  The random-accident button calls this with
speed 2. -/
def triggerCongestion (edgeId : String) (speed : ℚ) (reason : String)
    (edges : List JEdge) : List JEdge × List LogEvent :=
  (edges.map fun e =>
      if e.id == edgeId then { e with currentSpeed := speed, congested := true } else e,
   [.vanetAlert reason edgeId speed])

/-- The edge-speed invariant of spec §3, together with the configuration
assumptions it needs (`minSpeed = 5` below the limit, nominal speed below
the limit): `5 ≤ currentSpeed ≤ limit`, and the static fields in range. -/
def EdgeInv (e : JEdge) : Prop :=
  5 ≤ e.limit ∧ e.baseSpeed ≤ e.limit ∧ 5 ≤ e.currentSpeed ∧ e.currentSpeed ≤ e.limit

/-- An externally driven environment operation: a tick with its random
streams, a reset (restoring the initial edge list, lines 323-331), or an
incident injection. -/
inductive EnvOp where
  | tick (fl : ℕ → ℚ) (sv : ℕ → Bool)
  | reset
  | inject (edgeId : String) (speed : ℚ) (reason : String)

/-- Whether an environment operation is an incident injection. -/
def EnvOp.isInject : EnvOp → Bool
  | .inject _ _ _ => true
  | _ => false

/-- Apply one environment operation to the edge list. -/
def applyEnvOp (init : List JEdge) : EnvOp → List JEdge → List JEdge
  | .tick fl sv, es => envTickEdges fl sv 0 es
  | .reset, _ => init
  | .inject id sp r, es => (triggerCongestion id sp r es).1

/-- Edge lists reachable from `init` by a sequence of environment
operations. -/
def runEnvOps (init : List JEdge) (ops : List EnvOp) : List JEdge :=
  ops.foldl (fun es op => applyEnvOp init op es) init

/-!
## Vehicle movement tick (Simulation.tsx lines 244-293)
-/

/-- The slice of simulation state read and written by the vehicle movement
tick. -/
structure VState where
  isPlaying : Bool
  carNodeIndex : ℕ
  progress : ℚ
  isWaitingForLight : Bool
  currentPath : List String
  totalTime : ℚ
  distanceTraveled : ℚ
deriving DecidableEq, Repr

/-- One vehicle movement tick (the `setInterval` body, lines 244-293).
`carNodeIndex >= currentPath.length - 1` is evaluated over the integers, as
in JavaScript (for the empty path the right-hand side is `-1`).  Returns the
updated state and the emitted log events. -/
def moveTick (edges : List JEdge) (nodes : List JNode) (st : VState) :
    VState × List LogEvent :=
  if (st.carNodeIndex : ℤ) ≥ (st.currentPath.length : ℤ) - 1 then
    ({ st with isPlaying := false }, [.destinationReached st.totalTime])
  else
    let u := st.currentPath.getD st.carNodeIndex ""
    let v := st.currentPath.getD (st.carNodeIndex + 1) ""
    match edges.find? fun e =>
        (e.source == u && e.target == v) || (e.source == v && e.target == u) with
    | none => ({ st with isPlaying := false }, [.connectivityLost])
    | some edge =>
      let speed := edge.currentSpeed
      let length := edge.length
      let step := speed / length * (1/200)
      let targetNodeObj := nodes.find? fun n => n.id == v
      if (targetNodeObj.elim false fun n => n.light == .red) && st.progress > 17/20 then
        ({ st with isWaitingForLight := true, totalTime := st.totalTime + 1/20 }, [])
      else
        let newProgress := st.progress + step
        let st := { st with isWaitingForLight := false }
        let st :=
          if newProgress ≥ 1 then
            { st with carNodeIndex := st.carNodeIndex + 1, progress := 0 }
          else
            { st with progress := newProgress }
        ({ st with
            totalTime := st.totalTime + 1/50,
            distanceTraveled := st.distanceTraveled + step * length }, [])

/-- The three-node graph of the inadmissibility counterexample: a direct
10-km edge from start to goal, and a far-away relay node `N` reached and
left by 0.1-km edges; every speed and limit is 60 and every light green, and
every edge is classified vertical.  The heuristic at `N` (100 minutes)
vastly overestimates the true remaining cost (0.1 minutes). -/
def cNodes : List JNode :=
  [⟨"S", 0, 0, .green⟩, ⟨"G", 1, 1, .green⟩, ⟨"N", 0, 10000, .green⟩]

/-- Edges of the inadmissibility counterexample graph. -/
def cEdges : List JEdge :=
  [⟨"e1", "S", "G", 10, 60, 60, 60, false⟩,
   ⟨"e2", "S", "N", 1/10, 60, 60, 60, false⟩,
   ⟨"e3", "N", "G", 1/10, 60, 60, 60, false⟩]

/-- The search-loop invariant behind path soundness: every `cameFrom` link
follows a listed edge, predecessors are the start node or themselves linked,
open nodes are the start node or linked, and linked nodes are drawn from the
node universe. -/
structure AInv (edges : List JEdge) (startId : String) (st : AState) : Prop where
  conn : ∀ n p, st.cameFrom n = some p → connectsB edges p n = true
  image : ∀ n p, st.cameFrom n = some p → p = startId ∨ (st.cameFrom p).isSome
  openok : ∀ x ∈ st.openS, x = startId ∨ (st.cameFrom x).isSome
  inUniv : ∀ n, (st.cameFrom n).isSome → n ∈ nodeUniverse startId edges

/-!
## Helper lemmas
-/

/-- Characterisation of the decision rule as a proposition. -/
theorem shouldReroute_iff (est total pw nt : ℚ) :
    shouldReroute est total pw nt = true ↔
      (max (1/10) (est - total) - nt - pw > 0 ∧
        (max (1/10) (est - total) - nt) / max (1/10) (est - total) > 1/5) := by
  simp [shouldReroute]

instance (e : JEdge) : Decidable (EdgeInv e) :=
  inferInstanceAs (Decidable (5 ≤ e.limit ∧ e.baseSpeed ≤ e.limit ∧
    5 ≤ e.currentSpeed ∧ e.currentSpeed ≤ e.limit))

/-- A congested edge is returned untouched by the per-edge environment
update. -/
theorem envUpdateEdge_congested (fl : ℚ) (sv : Bool) (e : JEdge)
    (h : e.congested = true) : envUpdateEdge fl sv e = e := by
  simp [envUpdateEdge, h]

/-- Positions are preserved by an environment tick, each edge being updated
with its own stream entries. -/
theorem envTickEdges_getElem? (fl : ℕ → ℚ) (sv : ℕ → Bool) :
    ∀ (es : List JEdge) (i j : ℕ),
      (envTickEdges fl sv i es)[j]? = (es[j]?).map (envUpdateEdge (fl (i + j)) (sv (i + j)))
  | [], i, j => by simp [envTickEdges]
  | e :: rest, i, 0 => by simp [envTickEdges]
  | e :: rest, i, j + 1 => by
    have ih := envTickEdges_getElem? fl sv rest (i + 1) j
    simp only [envTickEdges, List.getElem?_cons_succ, ih]
    ring_nf

/-- One environment tick leaves a congested edge in place, unchanged. -/
theorem envTickEdges_congested_frozen (fl : ℕ → ℚ) (sv : ℕ → Bool)
    (es : List JEdge) (j : ℕ) (e : JEdge) (hj : es[j]? = some e)
    (hc : e.congested = true) : (envTickEdges fl sv 0 es)[j]? = some e := by
  rw [envTickEdges_getElem?, hj]
  simp [envUpdateEdge_congested _ _ _ hc]

/-- The per-edge environment update preserves the speed invariant. -/
theorem envUpdateEdge_inv (fl : ℚ) (sv : Bool) (e : JEdge) (h : EdgeInv e) :
    EdgeInv (envUpdateEdge fl sv e) := by
  obtain ⟨hlim, hbase, hcur, hcurlim⟩ := h
  have key : ∀ x : ℚ, 5 ≤ x → x ≤ e.limit →
      EdgeInv { e with currentSpeed := ((⌊x⌋ : ℤ) : ℚ) } := by
    intro x h5 hle
    refine ⟨hlim, hbase, ?_, ?_⟩
    · have h5' : (5 : ℤ) ≤ ⌊x⌋ := by rw [Int.le_floor]; exact_mod_cast h5
      show (5 : ℚ) ≤ ((⌊x⌋ : ℤ) : ℚ)
      exact_mod_cast h5'
    · show ((⌊x⌋ : ℤ) : ℚ) ≤ e.limit
      exact le_trans (Int.floor_le x) hle
  have hsev : e.baseSpeed * (1/5) ≤ e.limit := by
    rcases le_or_lt e.baseSpeed 0 with hb | hb
    · nlinarith
    · nlinarith
  unfold envUpdateEdge
  by_cases hc : e.congested
  · simp only [hc, if_true]
    exact ⟨hlim, hbase, hcur, hcurlim⟩
  · cases sv <;> simp only [hc, Bool.false_eq_true, if_false, if_true]
    · exact key _ (le_max_left _ _) (max_le hlim (min_le_left _ _))
    · exact key _ (le_max_left _ _) (max_le hlim hsev)

/-- An environment tick preserves the speed invariant of every edge. -/
theorem envTickEdges_inv (fl : ℕ → ℚ) (sv : ℕ → Bool) :
    ∀ (i : ℕ) (es : List JEdge), (∀ e ∈ es, EdgeInv e) →
      ∀ e ∈ envTickEdges fl sv i es, EdgeInv e
  | _, [], _ => by simp [envTickEdges]
  | i, e :: rest, h => by
    intro e' he'
    rw [envTickEdges] at he'
    rcases List.mem_cons.mp he' with he' | he'
    · exact he' ▸ envUpdateEdge_inv _ _ _ (h e (List.mem_cons_self _ _))
    · exact envTickEdges_inv fl sv (i + 1) rest
        (fun x hx => h x (List.mem_cons_of_mem _ hx)) e' he'

/-!
## Reconstruction lemmas

`cameFrom` is a functional graph; a walk along it that terminates (reaches a
node with no link) can never revisit a node, because from a revisited node
the walk would repeat forever.  The lemmas below capture this: fuel
monotonicity, a bound on members' own chains, and the resulting freshness,
no-duplication, chain and head properties of a successful reconstruction.
-/

theorem ancChain_of_none {cf : String → Option String} {cur : String}
    (h : cf cur = none) : ∀ f, ancChain cf f cur = some []
  | 0 => by rw [ancChain, h]
  | f + 1 => by rw [ancChain, h]

theorem ancChain_zero_of_some {cf : String → Option String} {cur p : String}
    (h : cf cur = some p) : ancChain cf 0 cur = none := by
  rw [ancChain, h]

theorem ancChain_succ_of_some {cf : String → Option String} {cur p : String}
    (h : cf cur = some p) (f : ℕ) :
    ancChain cf (f + 1) cur = (ancChain cf f p).map (· ++ [p]) := by
  rw [ancChain, h]

theorem reconstruct_of_none {cf : String → Option String} {cur : String}
    (h : cf cur = none) : ∀ (f : ℕ) (acc : List String),
      reconstruct cf f cur acc = some acc
  | 0, acc => by rw [reconstruct, h]
  | f + 1, acc => by rw [reconstruct, h]

theorem reconstruct_zero_of_some {cf : String → Option String} {cur p : String}
    (h : cf cur = some p) (acc : List String) : reconstruct cf 0 cur acc = none := by
  rw [reconstruct, h]

theorem reconstruct_succ_of_some {cf : String → Option String} {cur p : String}
    (h : cf cur = some p) (f : ℕ) (acc : List String) :
    reconstruct cf (f + 1) cur acc = reconstruct cf f p (p :: acc) := by
  rw [reconstruct, h]

theorem reconstruct_eq_ancChain (cf : String → Option String) :
    ∀ (fuel : ℕ) (cur : String) (acc : List String),
      reconstruct cf fuel cur acc = (ancChain cf fuel cur).map (· ++ acc)
  | 0, cur, acc => by
    cases hc : cf cur with
    | none => rw [reconstruct_of_none hc, ancChain_of_none hc]; rfl
    | some p => rw [reconstruct_zero_of_some hc, ancChain_zero_of_some hc]; rfl
  | fuel + 1, cur, acc => by
    cases hc : cf cur with
    | none => rw [reconstruct_of_none hc, ancChain_of_none hc]; rfl
    | some p =>
        rw [reconstruct_succ_of_some hc, ancChain_succ_of_some hc,
          reconstruct_eq_ancChain cf fuel p (p :: acc), Option.map_map]
        cases ancChain cf fuel p with
        | none => rfl
        | some l => simp

theorem ancChain_mono (cf : String → Option String) :
    ∀ (f f' : ℕ) (c : String) (l : List String), ancChain cf f c = some l →
      f ≤ f' → ancChain cf f' c = some l
  | 0, f', c, l, h, _ => by
    cases hc : cf c with
    | none => rw [ancChain_of_none hc] at h; rw [ancChain_of_none hc]; exact h
    | some p => rw [ancChain_zero_of_some hc] at h; cases h
  | f + 1, f', c, l, h, hle => by
    cases hc : cf c with
    | none => rw [ancChain_of_none hc] at h; rw [ancChain_of_none hc]; exact h
    | some p =>
        rw [ancChain_succ_of_some hc] at h
        cases f' with
        | zero => omega
        | succ f'' =>
            rw [ancChain_succ_of_some hc]
            cases hm : ancChain cf f p with
            | none => rw [hm] at h; cases h
            | some m =>
                rw [hm] at h
                rw [ancChain_mono cf f f'' p m hm (by omega)]
                exact h

theorem ancChain_mem (cf : String → Option String) :
    ∀ (f : ℕ) (c : String) (l : List String), ancChain cf f c = some l →
      ∀ x ∈ l, ∃ g l', g < f ∧ ancChain cf g x = some l' ∧ l'.length < l.length
  | 0, c, l, h => by
    cases hc : cf c with
    | none =>
        rw [ancChain_of_none hc] at h
        cases h
        intro x hx
        cases hx
    | some p => rw [ancChain_zero_of_some hc] at h; cases h
  | f + 1, c, l, h => by
    cases hc : cf c with
    | none =>
        rw [ancChain_of_none hc] at h
        cases h
        intro x hx
        cases hx
    | some p =>
        rw [ancChain_succ_of_some hc] at h
        cases hm : ancChain cf f p with
        | none => rw [hm] at h; cases h
        | some m =>
            rw [hm] at h
            cases h
            intro x hx
            rcases List.mem_append.mp hx with hx | hx
            · obtain ⟨g, l', hg, hl', hlen⟩ := ancChain_mem cf f p m hm x hx
              refine ⟨g, l', by omega, hl', ?_⟩
              simp only [List.length_append, List.length_singleton]
              omega
            · rcases List.mem_singleton.mp hx with rfl
              refine ⟨f, m, by omega, hm, ?_⟩
              simp only [List.length_append, List.length_singleton]
              omega

theorem ancChain_self_not_mem (cf : String → Option String) (f : ℕ) (c : String)
    (l : List String) (h : ancChain cf f c = some l) : c ∉ l := by
  intro hc
  obtain ⟨g, l', hg, hl', hlen⟩ := ancChain_mem cf f c l h c hc
  rw [ancChain_mono cf g f c l' hl' (by omega)] at h
  cases h
  omega

theorem ancChain_nodup (cf : String → Option String) :
    ∀ (f : ℕ) (c : String) (l : List String), ancChain cf f c = some l →
      (l ++ [c]).Nodup
  | 0, c, l, h => by
    cases hc : cf c with
    | none => rw [ancChain_of_none hc] at h; cases h; simp
    | some p => rw [ancChain_zero_of_some hc] at h; cases h
  | f + 1, c, l, h => by
    have hfresh := ancChain_self_not_mem cf (f + 1) c l h
    cases hc : cf c with
    | none => rw [ancChain_of_none hc] at h; cases h; simp
    | some p =>
        rw [ancChain_succ_of_some hc] at h
        cases hm : ancChain cf f p with
        | none => rw [hm] at h; cases h
        | some m =>
            rw [hm] at h
            cases h
            refine (ancChain_nodup cf f p m hm).append (List.nodup_singleton c) ?_
            intro x hx hx'
            rcases List.mem_singleton.mp hx' with rfl
            exact hfresh hx

theorem ancChain_chain (cf : String → Option String) :
    ∀ (f : ℕ) (c : String) (l : List String), ancChain cf f c = some l →
      List.Chain' (fun a b => cf b = some a) (l ++ [c])
  | 0, c, l, h => by
    cases hc : cf c with
    | none => rw [ancChain_of_none hc] at h; cases h; simp
    | some p => rw [ancChain_zero_of_some hc] at h; cases h
  | f + 1, c, l, h => by
    cases hc : cf c with
    | none => rw [ancChain_of_none hc] at h; cases h; simp
    | some p =>
        rw [ancChain_succ_of_some hc] at h
        cases hm : ancChain cf f p with
        | none => rw [hm] at h; cases h
        | some m =>
            rw [hm] at h
            cases h
            refine List.Chain'.append (ancChain_chain cf f p m hm) ?_ ?_
            · simp
            · intro x hx y hy
              rw [List.getLast?_concat] at hx
              simp only [Option.mem_def, Option.some.injEq] at hx hy
              rw [List.head?_cons] at hy
              cases hx
              cases hy
              exact hc

theorem ancChain_head (cf : String → Option String) :
    ∀ (f : ℕ) (c : String) (l : List String), ancChain cf f c = some l →
      ∀ h, (l ++ [c]).head? = some h → cf h = none
  | 0, c, l, hl => by
    cases hc : cf c with
    | none =>
        rw [ancChain_of_none hc] at hl
        cases hl
        intro h hh
        simp only [List.nil_append, List.head?_cons, Option.some.injEq] at hh
        cases hh
        exact hc
    | some p => rw [ancChain_zero_of_some hc] at hl; cases hl
  | f + 1, c, l, hl => by
    cases hc : cf c with
    | none =>
        rw [ancChain_of_none hc] at hl
        cases hl
        intro h hh
        simp only [List.nil_append, List.head?_cons, Option.some.injEq] at hh
        cases hh
        exact hc
    | some p =>
        rw [ancChain_succ_of_some hc] at hl
        cases hm : ancChain cf f p with
        | none => rw [hm] at hl; cases hl
        | some m =>
            rw [hm] at hl
            cases hl
            intro h hh
            cases m with
            | nil =>
                simp only [List.nil_append, List.cons_append, List.head?_cons,
                  Option.some.injEq] at hh
                cases hh
                exact ancChain_head cf f p [] hm p (by simp)
            | cons a m' =>
                simp only [List.cons_append, List.head?_cons, Option.some.injEq] at hh
                cases hh
                exact ancChain_head cf f p (h :: m') hm h (by simp)

theorem ancChain_mem_image (cf : String → Option String) :
    ∀ (f : ℕ) (c : String) (l : List String), ancChain cf f c = some l →
      ∀ x ∈ l, ∃ n, cf n = some x
  | 0, c, l, h => by
    cases hc : cf c with
    | none =>
        rw [ancChain_of_none hc] at h
        cases h
        intro x hx
        cases hx
    | some p => rw [ancChain_zero_of_some hc] at h; cases h
  | f + 1, c, l, h => by
    cases hc : cf c with
    | none =>
        rw [ancChain_of_none hc] at h
        cases h
        intro x hx
        cases hx
    | some p =>
        rw [ancChain_succ_of_some hc] at h
        cases hm : ancChain cf f p with
        | none => rw [hm] at h; cases h
        | some m =>
            rw [hm] at h
            cases h
            intro x hx
            rcases List.mem_append.mp hx with hx | hx
            · exact ancChain_mem_image cf f p m hm x hx
            · rcases List.mem_singleton.mp hx with rfl
              exact ⟨c, hc⟩

/-!
## Search-loop invariant lemmas
-/

theorem foldlChoice_mem (f : String → Option Qinf) :
    ∀ (xs : List String) (a : String),
      xs.foldl (fun a b => if jsLt (f a) (f b) then a else b) a = a ∨
        xs.foldl (fun a b => if jsLt (f a) (f b) then a else b) a ∈ xs
  | [], _ => Or.inl rfl
  | y :: xs, a => by
    rw [List.foldl_cons]
    rcases foldlChoice_mem f xs (if jsLt (f a) (f y) then a else y) with h | h
    · rw [h]
      by_cases hc : jsLt (f a) (f y) = true
      · rw [if_pos hc]
        exact Or.inl rfl
      · rw [if_neg hc]
        exact Or.inr (List.mem_cons_self y xs)
    · exact Or.inr (List.mem_cons_of_mem y h)

/-- The open node picked by the `reduce` of line 52 is an open node. -/
theorem pickMin_mem (f : String → Option Qinf) (l : List String) (hne : l ≠ []) :
    pickMin f l ∈ l := by
  cases l with
  | nil => exact absurd rfl hne
  | cons x xs =>
      rw [pickMin]
      rcases foldlChoice_mem f xs x with h | h
      · rw [h]
        exact List.mem_cons_self x xs
      · exact List.mem_cons_of_mem x h

theorem start_mem_nodeUniverse (startId : String) (edges : List JEdge) :
    startId ∈ nodeUniverse startId edges := by
  rw [nodeUniverse, List.mem_dedup]
  exact List.mem_cons_self _ _

theorem endpoints_mem_nodeUniverse (startId : String) (edges : List JEdge)
    (e : JEdge) (he : e ∈ edges) :
    e.source ∈ nodeUniverse startId edges ∧ e.target ∈ nodeUniverse startId edges := by
  constructor <;>
  · rw [nodeUniverse, List.mem_dedup]
    refine List.mem_cons_of_mem _ (List.mem_flatMap.mpr ⟨e, he, ?_⟩)
    simp

theorem mem_setAdd {l : List String} {y x : String} (h : x ∈ setAdd l y) :
    x ∈ l ∨ x = y := by
  rw [setAdd] at h
  by_cases hy : y ∈ l
  · rw [if_pos hy] at h
    exact Or.inl h
  · rw [if_neg hy] at h
    rcases List.mem_append.mp h with h | h
    · exact Or.inl h
    · exact Or.inr (List.mem_singleton.mp h)

/-- Relaxing one incident edge preserves the invariant, and only adds
`cameFrom` links. -/
theorem relaxEdge_inv (nodes : List JNode) (edges : List JEdge)
    (startId endId current : String) (st : AState) (e : JEdge) (he : e ∈ edges)
    (hinc : (e.source == current || e.target == current) = true)
    (hI : AInv edges startId st)
    (hcur : current = startId ∨ (st.cameFrom current).isSome) :
    AInv edges startId (relaxEdge nodes endId current st e) ∧
      ∀ n, (st.cameFrom n).isSome →
        ((relaxEdge nodes endId current st e).cameFrom n).isSome := by
  have hconn : connectsB edges current (if e.source == current then e.target else e.source)
      = true := by
    by_cases hsrc : (e.source == current) = true
    · rw [if_pos hsrc]
      refine List.any_eq_true.mpr ⟨e, he, ?_⟩
      rw [hsrc]
      simp
    · rw [if_neg hsrc]
      have htgt : (e.target == current) = true := by
        rcases Bool.or_eq_true_iff.mp hinc with h | h
        · exact absurd h hsrc
        · exact h
      refine List.any_eq_true.mpr ⟨e, he, ?_⟩
      rw [htgt]
      simp
  have huniv : (if e.source == current then e.target else e.source) ∈
      nodeUniverse startId edges := by
    by_cases hsrc : (e.source == current) = true
    · rw [if_pos hsrc]
      exact (endpoints_mem_nodeUniverse startId edges e he).2
    · rw [if_neg hsrc]
      exact (endpoints_mem_nodeUniverse startId edges e he).1
  rw [relaxEdge]
  by_cases hrel : jsLt
      (jsAdd (st.g current) (edgeCost nodes (st.cameFrom current) current
        (if e.source == current then e.target else e.source) e))
      (st.g (if e.source == current then e.target else e.source)) = true
  · rw [if_pos hrel]
    set nid := if e.source == current then e.target else e.source with hnid
    have hmono : ∀ n, (st.cameFrom n).isSome →
        (if n = nid then some current else st.cameFrom n).isSome := by
      intro n hn
      by_cases h : n = nid
      · rw [if_pos h]
        rfl
      · rw [if_neg h]
        exact hn
    refine ⟨⟨?_, ?_, ?_, ?_⟩, hmono⟩
    · intro n p hnp
      dsimp only at hnp
      by_cases h : n = nid
      · rw [if_pos h] at hnp
        cases hnp
        exact h ▸ hconn
      · rw [if_neg h] at hnp
        exact hI.conn n p hnp
    · intro n p hnp
      dsimp only at hnp ⊢
      by_cases h : n = nid
      · rw [if_pos h] at hnp
        cases hnp
        exact hcur.imp id (hmono current)
      · rw [if_neg h] at hnp
        exact (hI.image n p hnp).imp id (hmono p)
    · intro x hx
      dsimp only at hx ⊢
      rcases mem_setAdd hx with hx | hx
      · exact (hI.openok x hx).imp id (hmono x)
      · right
        rw [if_pos hx]
        rfl
    · intro n hn
      dsimp only at hn
      by_cases h : n = nid
      · exact h ▸ huniv
      · rw [if_neg h] at hn
        exact hI.inUniv n hn
  · rw [if_neg hrel]
    exact ⟨hI, fun n h => h⟩

/-- Folding the relaxation over the incident edges preserves the
invariant. -/
theorem foldRelax_inv (nodes : List JNode) (edges : List JEdge)
    (startId endId current : String) :
    ∀ (es : List JEdge) (st : AState),
      (∀ e ∈ es, e ∈ edges ∧ (e.source == current || e.target == current) = true) →
      AInv edges startId st →
      (current = startId ∨ (st.cameFrom current).isSome) →
      AInv edges startId (es.foldl (relaxEdge nodes endId current) st)
  | [], st, _, hI, _ => hI
  | e :: es, st, hes, hI, hcur => by
    rw [List.foldl_cons]
    obtain ⟨hIe, hmono⟩ := relaxEdge_inv nodes edges startId endId current st e
      (hes e (List.mem_cons_self _ _)).1 (hes e (List.mem_cons_self _ _)).2 hI hcur
    exact foldRelax_inv nodes edges startId endId current es _
      (fun e' he' => hes e' (List.mem_cons_of_mem _ he')) hIe
      (hcur.imp id (hmono current))

/-- Soundness of the main loop: a returned path starts at the start node,
ends at the goal, repeats no node, follows listed edges, and stays inside
the node universe. -/
theorem astarLoop_sound (edges : List JEdge) (nodes : List JNode)
    (startId endId : String) :
    ∀ (fuel : ℕ) (st : AState) (p : List String) (t : Option Qinf),
      AInv edges startId st →
      astarLoop edges nodes endId fuel st = some (some (p, t)) →
      p.head? = some startId ∧ p.getLast? = some endId ∧ p.Nodup ∧
        List.Chain' (fun u v => connectsB edges u v = true) p ∧
        ∀ x ∈ p, x ∈ nodeUniverse startId edges
  | 0, st, p, t, _, h => by rw [astarLoop] at h; cases h
  | fuel + 1, st, p, t, hI, h => by
    simp only [astarLoop] at h
    by_cases hne : st.openS = []
    · rw [if_pos hne] at h
      cases h
    · rw [if_neg hne] at h
      by_cases hgoal : pickMin st.f st.openS = endId
      · rw [if_pos hgoal, hgoal] at h
        have hEndOpen : endId ∈ st.openS := hgoal ▸ pickMin_mem st.f st.openS hne
        cases hrec : reconstruct st.cameFrom (fuel + 1) endId [endId] with
        | none => rw [hrec] at h; cases h
        | some totalPath =>
            rw [hrec] at h
            simp only [Option.some.injEq, Prod.mk.injEq] at h
            obtain ⟨rfl, rfl⟩ := h
            rw [reconstruct_eq_ancChain] at hrec
            cases hanc : ancChain st.cameFrom (fuel + 1) endId with
            | none => rw [hanc] at hrec; cases hrec
            | some l =>
                rw [hanc] at hrec
                simp only [Option.map_some', Option.some.injEq] at hrec
                cases hrec
                have hnodup := ancChain_nodup st.cameFrom (fuel + 1) endId l hanc
                have hchain := ancChain_chain st.cameFrom (fuel + 1) endId l hanc
                refine ⟨?_, List.getLast?_concat _, hnodup,
                  hchain.imp (fun a b hab => hI.conn b a hab), ?_⟩
                · cases l with
                  | nil =>
                      have hcfend : st.cameFrom endId = none :=
                        ancChain_head st.cameFrom (fuel + 1) endId [] hanc endId (by simp)
                      rcases hI.openok endId hEndOpen with hstart | hsome
                      · simp [hstart]
                      · rw [hcfend] at hsome
                        cases hsome
                  | cons a l' =>
                      have hcfa : st.cameFrom a = none :=
                        ancChain_head st.cameFrom (fuel + 1) endId (a :: l') hanc a (by simp)
                      obtain ⟨n, hn⟩ := ancChain_mem_image st.cameFrom (fuel + 1) endId
                        (a :: l') hanc a (List.mem_cons_self _ _)
                      rcases hI.image n a hn with hstart | hsome
                      · simp [hstart]
                      · rw [hcfa] at hsome
                        cases hsome
                · intro x hx
                  rcases List.mem_append.mp hx with hx | hx
                  · obtain ⟨n, hn⟩ := ancChain_mem_image st.cameFrom (fuel + 1) endId
                      l hanc x hx
                    rcases hI.image n x hn with hstart | hsome
                    · exact hstart ▸ start_mem_nodeUniverse startId edges
                    · exact hI.inUniv x hsome
                  · rcases List.mem_singleton.mp hx with rfl
                    rcases hI.openok x hEndOpen with hstart | hsome
                    · exact hstart ▸ start_mem_nodeUniverse startId edges
                    · exact hI.inUniv x hsome
      · rw [if_neg hgoal] at h
        refine astarLoop_sound edges nodes startId endId fuel _ p t ?_ h
        refine foldRelax_inv nodes edges startId endId (pickMin st.f st.openS) _ _
          (fun e he => ?_) ?_ ?_
        · exact ⟨(List.mem_filter.mp he).1, (List.mem_filter.mp he).2⟩
        · exact ⟨hI.conn, hI.image,
            fun x hx => hI.openok x (List.mem_of_mem_erase hx), hI.inUniv⟩
        · exact hI.openok (pickMin st.f st.openS) (pickMin_mem st.f st.openS hne)

/-- Soundness of `findBestPath`: every returned path starts at the start
node, ends at the goal, repeats no node, follows listed edges, and draws its
nodes from the node universe. -/
theorem findBestPath_sound (fuel : ℕ) (startId endId : String)
    (edges : List JEdge) (nodes : List JNode) (p : List String) (t : Option Qinf)
    (h : findBestPath fuel startId endId edges nodes = some (some (p, t))) :
    p.head? = some startId ∧ p.getLast? = some endId ∧ p.Nodup ∧
      List.Chain' (fun u v => connectsB edges u v = true) p ∧
      ∀ x ∈ p, x ∈ nodeUniverse startId edges := by
  rw [findBestPath] at h
  refine astarLoop_sound edges nodes startId endId fuel _ p t ⟨?_, ?_, ?_, ?_⟩ h
  · intro n q hnq
    cases hnq
  · intro n q hnq
    cases hnq
  · intro x hx
    rcases List.mem_singleton.mp hx with rfl
    exact Or.inl rfl
  · intro n hn
    cases hn

/-!
## Reference-path enumeration lemmas
-/

theorem nodupB_iff : ∀ (l : List String), nodupB l = true ↔ l.Nodup
  | [] => by simp [nodupB]
  | x :: xs => by
    rw [nodupB, Bool.and_eq_true, Bool.not_eq_true']
    rw [nodupB_iff xs, List.nodup_cons]
    constructor
    · rintro ⟨hc, hnd⟩
      refine ⟨fun hx => ?_, hnd⟩
      rw [show xs.contains x = List.elem x xs from rfl, List.elem_eq_mem,
        decide_eq_false_iff_not] at hc
      exact hc hx
    · rintro ⟨hx, hnd⟩
      refine ⟨?_, hnd⟩
      rw [show xs.contains x = List.elem x xs from rfl, List.elem_eq_mem,
        decide_eq_false_iff_not]
      exact hx

theorem chainB_iff (edges : List JEdge) : ∀ (l : List String),
    chainB edges l = true ↔ List.Chain' (fun u v => connectsB edges u v = true) l
  | [] => by simp [chainB]
  | [u] => by simp [chainB]
  | u :: v :: rest => by
    rw [chainB, Bool.and_eq_true, chainB_iff edges (v :: rest), List.chain'_cons]

theorem isSimplePathB_of (edges : List JEdge) (start goal : String)
    (p : List String) (h1 : p.head? = some start) (h2 : p.getLast? = some goal)
    (h3 : p.Nodup) (h4 : List.Chain' (fun u v => connectsB edges u v = true) p) :
    isSimplePathB edges start goal p = true := by
  rw [isSimplePathB, h1, h2]
  simp [(nodupB_iff p).mpr h3, (chainB_iff edges p).mpr h4]

theorem mem_insertsEverywhere {α : Type} (x : α) :
    ∀ (l1 l2 : List α), (l1 ++ x :: l2) ∈ insertsEverywhere x (l1 ++ l2)
  | [], [] => by simp [insertsEverywhere]
  | [], y :: ys => by simp [insertsEverywhere]
  | y :: l1, l2 => by
    rw [List.cons_append, List.cons_append, insertsEverywhere]
    exact List.mem_cons_of_mem _
      (List.mem_map.mpr ⟨l1 ++ x :: l2, mem_insertsEverywhere x l1 l2, rfl⟩)

/-- Completeness of the permutation enumerator. -/
theorem mem_perms_of_perm {α : Type} :
    ∀ (l l' : List α), List.Perm l' l → l' ∈ perms l
  | [], l', h => by
    rw [List.perm_nil.mp h, perms]
    exact List.mem_singleton.mpr rfl
  | x :: xs, l', h => by
    have hx : x ∈ l' := h.symm.subset (List.mem_cons_self x xs)
    obtain ⟨l1, l2, rfl⟩ := List.append_of_mem hx
    have hperm : List.Perm (l1 ++ l2) xs := (List.perm_middle.symm.trans h).cons_inv
    rw [perms]
    exact List.mem_flatMap.mpr ⟨l1 ++ l2, mem_perms_of_perm xs (l1 ++ l2) hperm,
      mem_insertsEverywhere x l1 l2⟩

/-- A loop-free valid path over the node universe is among the enumerated
simple paths. -/
theorem mem_simplePaths (startId endId : String) (edges : List JEdge)
    (p : List String) (hb : isSimplePathB edges startId endId p = true)
    (hnd : p.Nodup) (hsub : ∀ x ∈ p, x ∈ nodeUniverse startId edges) :
    p ∈ simplePaths startId endId edges := by
  rw [simplePaths]
  refine List.mem_filter.mpr ⟨?_, hb⟩
  obtain ⟨s, hs_perm, hs_sub⟩ := hnd.subperm (fun x hx => hsub x hx)
  exact List.mem_flatMap.mpr ⟨s, List.mem_sublists.mpr hs_sub,
    mem_perms_of_perm s p hs_perm.symm⟩

/-- The reference shortest-path cost is a lower bound on the static cost of
any enumerated simple path. -/
theorem refShortestCost_le (startId endId : String) (edges : List JEdge)
    (nodes : List JNode) (p : List String)
    (hp : p ∈ simplePaths startId endId edges) :
    refShortestCost startId endId edges nodes ≤ (staticCost edges nodes p : Qinf) := by
  rw [refShortestCost]
  exact List.minimum_le_of_mem' (List.mem_map_of_mem _ hp)

/-!
## Claim theorems
-/

/-- C1: whenever the candidate path differs from the remaining committed
suffix, the engine accepts — committing the spliced path, incrementing the
reroute counter, setting the estimate to elapsed plus candidate time, and
logging the success event — if and only if `netBenefit > 0` and
`relativeImprovement > 0.2`, with `oldRemaining = max(0.1, estimate −
elapsed)` and `timeSaved = oldRemaining − newRemaining`; in particular with
`penaltyWeight = 1.5`, `oldRemaining = 10` the candidate time 5 is accepted
and 9 is rejected. -/
theorem C1_reroute_acceptance_iff :
    (∀ (pw newTime : ℚ) (newPath : List String) (st : RState),
      String.intercalate "," (st.currentPath.drop st.carNodeIndex) ≠
          String.intercalate "," newPath →
        (rerouteEval pw newPath newTime st =
          ({ st with
              currentPath := st.currentPath.take st.carNodeIndex ++ newPath,
              pathChanges := st.pathChanges + 1,
              estimatedTime := st.totalTime + newTime },
            [.rerouteTriggered (max (1/10) (st.estimatedTime - st.totalTime) - newTime)
              (max (1/10) (st.estimatedTime - st.totalTime) - newTime - pw)]) ↔
          (max (1/10) (st.estimatedTime - st.totalTime) - newTime - pw > 0 ∧
            (max (1/10) (st.estimatedTime - st.totalTime) - newTime) /
              max (1/10) (st.estimatedTime - st.totalTime) > 1/5))) ∧
    rerouteEval (3/2) ["a", "c", "b"] 5 ⟨["a", "b"], 0, 10, 0, 0⟩ =
      (⟨["a", "c", "b"], 0, 5, 0, 1⟩, [.rerouteTriggered 5 (7/2)]) ∧
    rerouteEval (3/2) ["a", "c", "b"] 9 ⟨["a", "b"], 0, 10, 0, 0⟩ =
      (⟨["a", "b"], 0, 10, 0, 0⟩, []) := by
  refine ⟨?_, by decide, by decide⟩
  intro pw newTime newPath st hne
  rw [rerouteEval]
  rw [if_pos hne]
  by_cases hs : shouldReroute st.estimatedTime st.totalTime pw newTime = true
  · rw [if_pos hs]
    simp only [true_iff, iff_true_intro ((shouldReroute_iff _ _ _ _).mp hs)]
  · rw [if_neg hs]
    constructor
    · intro hEq
      have := congrArg (fun r => r.1.pathChanges) hEq
      simp at this
    · intro hCond
      exact absurd ((shouldReroute_iff _ _ _ _).mpr hCond) hs

/-- C1 witness: the general equivalence applied at a concrete state where
the candidate differs from the remaining suffix. -/
theorem C1_reroute_acceptance_iff_witness :
    rerouteEval (3/2) ["a", "c", "b"] 5 ⟨["a", "b"], 0, 10, 0, 0⟩ =
      (⟨["a", "c", "b"], 0, 5, 0, 1⟩,
        [.rerouteTriggered (max (1/10) ((10:ℚ) - 0) - 5) (max (1/10) ((10:ℚ) - 0) - 5 - 3/2)]) :=
  (C1_reroute_acceptance_iff.1 (3/2) 5 ["a", "c", "b"] ⟨["a", "b"], 0, 10, 0, 0⟩
    (by decide)).mpr (by norm_num)

/-- C4: reroute acceptance is antitone in the penalty weight — lowering the
weight (all other inputs fixed) preserves acceptance, so raising it can only
turn an accept into a reject. -/
theorem C4_penalty_antitone (est total p1 p2 nt : ℚ) (h12 : p1 ≤ p2)
    (h : shouldReroute est total p2 nt = true) :
    shouldReroute est total p1 nt = true := by
  rw [shouldReroute_iff] at h ⊢
  exact ⟨by linarith [h.1], h.2⟩

/-- C4 witness: acceptance at weight 1.5 transfers to weight 1. -/
theorem C4_penalty_antitone_witness : shouldReroute 10 0 1 5 = true :=
  C4_penalty_antitone 10 0 1 (3/2) 5 (by norm_num) (by decide)

/-- C5 (code bug): `addLog` of a single entry into the empty log yields the
empty log — `slice(100)` drops the 100 *newest* entries instead of keeping
the newest 100, so the new entry is never retained. -/
theorem C5_addLog_discards_new_entry :
    addLog (0 : ℕ) [] = [] ∧ addLog (0 : ℕ) [] ≠ [0] := by decide

/-- C8: an edge flagged congested at position `j` is left exactly in place,
entirely unchanged, by any sequence of environment ticks. -/
theorem C8_congested_edge_frozen (ps : List ((ℕ → ℚ) × (ℕ → Bool)))
    (es : List JEdge) (j : ℕ) (e : JEdge) (hj : es[j]? = some e)
    (hc : e.congested = true) : (runTicks ps es)[j]? = some e := by
  induction ps generalizing es with
  | nil => exact hj
  | cons p ps ih =>
      exact ih (envTickEdges p.1 p.2 0 es) (envTickEdges_congested_frozen p.1 p.2 es j e hj hc)

/-- C8 witness: a concrete congested edge survives a concrete tick
untouched. -/
theorem C8_congested_edge_frozen_witness :
    (runTicks [(fun _ => 3, fun _ => true)]
        [⟨"e1", "a", "b", 1, 60, 60, 2, true⟩])[0]? =
      some ⟨"e1", "a", "b", 1, 60, 60, 2, true⟩ :=
  C8_congested_edge_frozen [(fun _ => 3, fun _ => true)]
    [⟨"e1", "a", "b", 1, 60, 60, 2, true⟩] 0 _ (by decide) (by decide)

/-- C9: when the candidate route equals the remaining committed suffix, the
reroute evaluation is a no-op: state unchanged and no log event emitted. -/
theorem C9_equal_suffix_noop (pw newTime : ℚ) (newPath : List String)
    (st : RState) (h : newPath = st.currentPath.drop st.carNodeIndex) :
    rerouteEval pw newPath newTime st = (st, []) := by
  subst h
  simp [rerouteEval]

/-- C9 witness: a concrete candidate equal to the remaining suffix leaves a
concrete state untouched. -/
theorem C9_equal_suffix_noop_witness :
    rerouteEval 1 ["a", "b"] 2 ⟨["a", "b"], 0, 3, 1, 0⟩ =
      (⟨["a", "b"], 0, 3, 1, 0⟩, []) :=
  C9_equal_suffix_noop 1 2 ["a", "b"] ⟨["a", "b"], 0, 3, 1, 0⟩ (by decide)

/-- Folding injection-free environment operations preserves the edge
invariant. -/
theorem envOpsFold_inv (init : List JEdge) (hinit : ∀ e ∈ init, EdgeInv e) :
    ∀ (ops : List EnvOp), (∀ op ∈ ops, op.isInject = false) →
      ∀ (es : List JEdge), (∀ e ∈ es, EdgeInv e) →
        ∀ e ∈ ops.foldl (fun acc op => applyEnvOp init op acc) es, EdgeInv e
  | [], _, es, hes => by simpa using hes
  | op :: ops, hops, es, hes => by
    rw [List.foldl_cons]
    refine envOpsFold_inv init hinit ops
      (fun o ho => hops o (List.mem_cons_of_mem _ ho)) _ ?_
    cases op with
    | tick fl sv => exact envTickEdges_inv fl sv 0 es hes
    | reset => exact hinit
    | inject id sp r => simpa [EnvOp.isInject] using hops _ (List.mem_cons_self _ _)

/-- C6 counterexample: injecting an incident with the accident button's
forced speed 2 (a reachable state: one `triggerCongestion` from a compliant
initial state) leaves an edge with `currentSpeed = 2 < 5 = minSpeed`,
refuting the claimed invariant `minSpeed ≤ currentSpeed` for all reachable
states including incident injections. -/
theorem C6_counterexample :
    runEnvOps [⟨"e1", "a", "b", 1, 60, 50, 50, false⟩]
        [.inject "e1" 2 "Sudden Accident"] =
      [⟨"e1", "a", "b", 1, 60, 50, 2, true⟩] ∧
    ¬ (5 ≤ (2 : ℚ)) := by
  constructor
  · decide
  · norm_num

/-- C6 (amended): after any interleaving of environment ticks and resets —
but no incident injections — every edge keeps `0 < 5 ≤ currentSpeed ≤
limit`, given that the initial edges satisfy the invariant;
`triggerCongestion` stores its forced speed unchecked, so injections (the
accident button forces 2 km/h) escape the bound. -/
theorem C6_speed_invariant_without_injections (init : List JEdge)
    (hinit : ∀ e ∈ init, EdgeInv e) (ops : List EnvOp)
    (hops : ∀ op ∈ ops, op.isInject = false) :
    ∀ e ∈ runEnvOps init ops, (0 : ℚ) < 5 ∧ 5 ≤ e.currentSpeed ∧ e.currentSpeed ≤ e.limit := by
  have h := envOpsFold_inv init hinit ops hops init hinit
  intro e he
  exact ⟨by norm_num, (h e he).2.2.1, (h e he).2.2.2⟩

/-- C6 witness: a concrete compliant edge stays in range through a tick and
a reset. -/
theorem C6_speed_invariant_without_injections_witness :
    (0 : ℚ) < 5 ∧ 5 ≤ (⟨"e1", "a", "b", 1, 60, 50, 50, false⟩ : JEdge).currentSpeed ∧
      (⟨"e1", "a", "b", 1, 60, 50, 50, false⟩ : JEdge).currentSpeed ≤
        (⟨"e1", "a", "b", 1, 60, 50, 50, false⟩ : JEdge).limit :=
  C6_speed_invariant_without_injections [⟨"e1", "a", "b", 1, 60, 50, 50, false⟩]
    (by decide) [.tick (fun _ => 100) (fun _ => false), .reset]
    (by
      intro op hop
      rcases List.mem_cons.mp hop with rfl | hop
      · rfl
      · rcases List.mem_cons.mp hop with rfl | hop
        · rfl
        · cases hop)
    ⟨"e1", "a", "b", 1, 60, 50, 50, false⟩ (by decide)

/-- C7: on a movement tick with the next node's light red and progress past
the 0.85 threshold, the simulator records waiting-for-light, leaves progress
and the edge index unchanged, and accrues only the fixed 0.05-minute idle
cost; on a tick with that light green it clears waiting-for-light and
advances again (edge index or progress strictly increases). -/
theorem C7_red_light_wait_and_resume :
    (∀ (edges : List JEdge) (nodes : List JNode) (st : VState) (e : JEdge) (tn : JNode),
      ¬ ((st.carNodeIndex : ℤ) ≥ (st.currentPath.length : ℤ) - 1) →
      edges.find? (fun ed =>
        (ed.source == st.currentPath.getD st.carNodeIndex "" &&
          ed.target == st.currentPath.getD (st.carNodeIndex + 1) "") ||
        (ed.source == st.currentPath.getD (st.carNodeIndex + 1) "" &&
          ed.target == st.currentPath.getD st.carNodeIndex "")) = some e →
      nodes.find? (fun n => n.id == st.currentPath.getD (st.carNodeIndex + 1) "") = some tn →
      tn.light = .red → st.progress > 17/20 →
      moveTick edges nodes st =
        ({ st with isWaitingForLight := true, totalTime := st.totalTime + 1/20 }, [])) ∧
    (∀ (edges : List JEdge) (nodes : List JNode) (st : VState) (e : JEdge) (tn : JNode),
      ¬ ((st.carNodeIndex : ℤ) ≥ (st.currentPath.length : ℤ) - 1) →
      edges.find? (fun ed =>
        (ed.source == st.currentPath.getD st.carNodeIndex "" &&
          ed.target == st.currentPath.getD (st.carNodeIndex + 1) "") ||
        (ed.source == st.currentPath.getD (st.carNodeIndex + 1) "" &&
          ed.target == st.currentPath.getD st.carNodeIndex "")) = some e →
      nodes.find? (fun n => n.id == st.currentPath.getD (st.carNodeIndex + 1) "") = some tn →
      tn.light = .green → 0 < e.currentSpeed → 0 < e.length →
      (moveTick edges nodes st).1.isWaitingForLight = false ∧
        ((moveTick edges nodes st).1.carNodeIndex = st.carNodeIndex + 1 ∨
          (moveTick edges nodes st).1.progress > st.progress)) := by
  constructor
  · intro edges nodes st e tn hidx hedge htn hred hprog
    rw [moveTick, if_neg hidx]
    simp only [hedge, htn, Option.elim_some, hred, beq_self_eq_true, Bool.true_and,
      decide_eq_true_eq]
    rw [if_pos hprog]
  · intro edges nodes st e tn hidx hedge htn hgreen hspeed hlen
    have hstep : 0 < e.currentSpeed / e.length * (1/200) := by positivity
    rw [moveTick, if_neg hidx]
    simp only [hedge, htn, Option.elim_some, hgreen]
    simp only [show (Light.green == Light.red) = false from rfl, Bool.false_and,
      Bool.false_eq_true, if_false]
    by_cases hnp : st.progress + e.currentSpeed / e.length * (1/200) ≥ 1
    · rw [if_pos hnp]
      exact ⟨rfl, Or.inl rfl⟩
    · rw [if_neg hnp]
      exact ⟨rfl, Or.inr (by simp only []; linarith)⟩

/-- C7 witness: both parts applied at a concrete mid-edge state (progress
0.9): one red tick waits without advancing, one green tick resumes. -/
theorem C7_red_light_wait_and_resume_witness :
    moveTick [⟨"e1", "a", "b", 1, 60, 30, 30, false⟩] [⟨"b", 5, 5, .red⟩]
        ⟨true, 0, 9/10, false, ["a", "b", "c"], 0, 0⟩ =
      (⟨true, 0, 9/10, true, ["a", "b", "c"], 1/20, 0⟩, []) ∧
    ((moveTick [⟨"e1", "a", "b", 1, 60, 30, 30, false⟩] [⟨"b", 5, 5, .green⟩]
        ⟨true, 0, 9/10, false, ["a", "b", "c"], 0, 0⟩).1.isWaitingForLight = false ∧
      ((moveTick [⟨"e1", "a", "b", 1, 60, 30, 30, false⟩] [⟨"b", 5, 5, .green⟩]
        ⟨true, 0, 9/10, false, ["a", "b", "c"], 0, 0⟩).1.carNodeIndex = 0 + 1 ∨
       (moveTick [⟨"e1", "a", "b", 1, 60, 30, 30, false⟩] [⟨"b", 5, 5, .green⟩]
        ⟨true, 0, 9/10, false, ["a", "b", "c"], 0, 0⟩).1.progress > 9/10)) :=
  ⟨C7_red_light_wait_and_resume.1 _ _ ⟨true, 0, 9/10, false, ["a", "b", "c"], 0, 0⟩
      ⟨"e1", "a", "b", 1, 60, 30, 30, false⟩ ⟨"b", 5, 5, .red⟩
      (by decide) (by decide) (by decide) rfl (by decide),
   C7_red_light_wait_and_resume.2 _ _ ⟨true, 0, 9/10, false, ["a", "b", "c"], 0, 0⟩
      ⟨"e1", "a", "b", 1, 60, 30, 30, false⟩ ⟨"b", 5, 5, .green⟩
      (by decide) (by decide) (by decide) rfl (by decide) (by decide)⟩

/-- C10: with a committed path of fewer than two nodes (including the empty
path), the very first movement tick takes the arrival branch: the simulation
stops and a success-severity destination-reached entry is logged, exactly as
on genuine arrival. -/
theorem C10_short_path_first_tick_is_arrival (edges : List JEdge)
    (nodes : List JNode) (st : VState) (hlen : st.currentPath.length < 2)
    (hidx : st.carNodeIndex = 0) :
    moveTick edges nodes st =
      ({ st with isPlaying := false }, [.destinationReached st.totalTime]) ∧
      (LogEvent.destinationReached st.totalTime).severity = .success := by
  have hl : (st.currentPath.length : ℤ) ≤ 1 := by exact_mod_cast Nat.lt_succ_iff.mp hlen
  have harr : (st.carNodeIndex : ℤ) ≥ (st.currentPath.length : ℤ) - 1 := by
    rw [hidx]
    push_cast
    linarith
  rw [moveTick, if_pos harr]
  exact ⟨rfl, rfl⟩

/-- C10 witness: the empty committed path at index 0 stops the simulation
with the completion log entry. -/
theorem C10_short_path_first_tick_is_arrival_witness :
    moveTick [] [] ⟨true, 0, 0, false, [], 7, 0⟩ =
      (⟨false, 0, 0, false, [], 7, 0⟩, [.destinationReached 7]) ∧
      (LogEvent.destinationReached (7:ℚ)).severity = .success :=
  C10_short_path_first_tick_is_arrival [] [] ⟨true, 0, 0, false, [], 7, 0⟩
    (by decide) rfl

/-- C3: every path returned by `findBestPath` is loop-free (no node id
occurs twice), every consecutive pair of its nodes is joined by an edge
present in the edge list, and its first and last elements are the requested
start and goal. -/
theorem C3_returned_path_integrity (fuel : ℕ) (startId endId : String)
    (edges : List JEdge) (nodes : List JNode) (p : List String) (t : Option Qinf)
    (h : findBestPath fuel startId endId edges nodes = some (some (p, t))) :
    p.Nodup ∧ List.Chain' (fun u v => connectsB edges u v = true) p ∧
      p.head? = some startId ∧ p.getLast? = some endId := by
  obtain ⟨h1, h2, h3, h4, _⟩ := findBestPath_sound fuel startId endId edges nodes p t h
  exact ⟨h3, h4, h1, h2⟩

/-- C3 witness: the concrete run on the three-node graph returns
`["S", "G"]`, which indeed satisfies all four properties. -/
theorem C3_returned_path_integrity_witness :
    (["S", "G"] : List String).Nodup ∧
      List.Chain' (fun u v => connectsB cEdges u v = true) ["S", "G"] ∧
      (["S", "G"] : List String).head? = some "S" ∧
      (["S", "G"] : List String).getLast? = some "G" :=
  C3_returned_path_integrity 10 "S" "G" cEdges cNodes ["S", "G"] (some 10) (by decide)

/-- C2 counterexample: on the three-node graph — whose every edge has speed
limit 60 (road-level factor 1) and the same direction class (no turn
penalty ever applies) — the planner returns the direct path of cost 10,
while the reference shortest-path cost over the same static weights is 1/5:
the far-away relay node's heuristic overestimates its true remaining cost,
so A* never expands it. -/
theorem C2_counterexample :
    cEdges.all (fun e => decide (60 ≤ e.limit)) = true ∧
    cEdges.all (fun e => cEdges.all fun e2 =>
      getDirection cNodes e.source e.target == getDirection cNodes e2.source e2.target) = true ∧
    findBestPath 10 "S" "G" cEdges cNodes = some (some (["S", "G"], some 10)) ∧
    staticCost cEdges cNodes ["S", "G"] = 10 ∧
    refShortestCost "S" "G" cEdges cNodes = ((1/5 : ℚ) : Qinf) ∧
    ((10 : ℚ) : Qinf) ≠ ((1/5 : ℚ) : Qinf) :=
  ⟨by decide, by decide, by decide, by decide, by decide, by decide⟩

/-- C2 (amended): for every graph in which the turn penalty and the
road-level multiplier contribute nothing to edge costs, the total static
cost of the path returned by `findBestPath` is greater than or equal to the
reference shortest-path cost on the same static weights; equality can fail,
because the heuristic may overestimate the remaining cost. -/
theorem C2_planner_cost_dominates_reference (fuel : ℕ) (startId endId : String)
    (edges : List JEdge) (nodes : List JNode) (p : List String) (t : Option Qinf)
    (hlim : ∀ e ∈ edges, 60 ≤ e.limit)
    (hdir : ∀ e ∈ edges, ∀ e2 ∈ edges,
      getDirection nodes e.source e.target = getDirection nodes e2.source e2.target)
    (h : findBestPath fuel startId endId edges nodes = some (some (p, t))) :
    refShortestCost startId endId edges nodes ≤ (staticCost edges nodes p : Qinf) := by
  obtain ⟨h1, h2, h3, h4, h5⟩ := findBestPath_sound fuel startId endId edges nodes p t h
  exact refShortestCost_le startId endId edges nodes p
    (mem_simplePaths startId endId edges p
      (isSimplePathB_of edges startId endId p h1 h2 h3 h4) h3 h5)

/-- C2 witness: the amended bound applied to the concrete three-node run,
where it is strict (1/5 ≤ 10). -/
theorem C2_planner_cost_dominates_reference_witness :
    refShortestCost "S" "G" cEdges cNodes ≤ (staticCost cEdges cNodes ["S", "G"] : Qinf) :=
  C2_planner_cost_dominates_reference 10 "S" "G" cEdges cNodes ["S", "G"] (some 10)
    (by decide) (by decide) (by decide)

end AutoPath
